import Mathlib

/-!
Verification of the core of `DAG_model.py`: the NOTEARS-style acyclicity
constraint, the NB/ZINB likelihoods, the KL-divergence layer, the structural
transform layers, the pass-through loss layers, and the augmented-Lagrangian
training loop.  Tensor arithmetic is embedded over `ℚ` where the computation is
rational (matrix algebra) and over `ℝ` where transcendental functions
(`log`, `exp`, `lgamma`, real powers) appear.  The likelihood code is embedded
with `Option`-valued primitives: a primitive returns `none` when the
corresponding IEEE operation produces a non-finite value (`log` of a
non-positive number, division by zero, a power with an undefined or infinite
result), and the composition respects IEEE rescues of non-finite
intermediates on the inputs the likelihoods form — in particular
`pow(x, 0) = 1` for every `x`, NaN included.
-/

open Matrix

namespace DAGModel

/-! ### `DAG_constraint` (DAG_model.py lines 323–335)

`tf.multiply(A, A)` is the elementwise square; the loop
`for i in range(n_nodes-1): x = tf.matmul(x, x)` squares the accumulator
`n - 1` times. -/

/-- Elementwise square `tf.multiply(A, A)` of a square matrix. -/
def hadSq {n : ℕ} (A : Matrix (Fin n) (Fin n) ℚ) : Matrix (Fin n) (Fin n) ℚ :=
  fun i j => A i j * A i j

/-- `DAG_constraint(A, alpha)`: start from `I + alpha * A∘A`, square the
accumulator `n - 1` times, return `trace - n`. -/
def DAG_constraint {n : ℕ} (A : Matrix (Fin n) (Fin n) ℚ) (alpha : ℚ) : ℚ :=
  Matrix.trace ((fun x => x * x)^[n - 1] (1 + alpha • hadSq A)) - (n : ℚ)

/-- The formula the spec states for `DAG_constraint`:
`trace((I + alpha * A∘A)^n) - n` with the literal `n`-th matrix power. -/
def DAG_constraint_specFormula {n : ℕ} (A : Matrix (Fin n) (Fin n) ℚ)
    (alpha : ℚ) : ℚ :=
  Matrix.trace ((1 + alpha • hadSq A) ^ n) - (n : ℚ)

/-- Entries on or below the diagonal vanish (strictly upper-triangular,
zero diagonal). -/
def StrictUpper {n : ℕ} (A : Matrix (Fin n) (Fin n) ℚ) : Prop :=
  ∀ i j, j ≤ i → A i j = 0

/-- Entries on or above the diagonal vanish (strictly lower-triangular,
zero diagonal). -/
def StrictLower {n : ℕ} (A : Matrix (Fin n) (Fin n) ℚ) : Prop :=
  ∀ i j, i ≤ j → A i j = 0

/-- The weighted digraph of `A` contains a directed cycle: a closed walk of
positive length (at most `n`, as a simple cycle never repeats a vertex) all
of whose steps traverse entries of `A` that are nonzero. -/
def HasCycle {n : ℕ} (A : Matrix (Fin n) (Fin n) ℚ) : Prop :=
  ∃ (L : ℕ) (c : ℕ → Fin n), 0 < L ∧ L ≤ n ∧ c L = c 0 ∧
    ∀ t, t < L → A (c t) (c (t + 1)) ≠ 0

/-- All entries of a matrix are nonnegative. -/
def EntrywiseNonneg {n : ℕ} (B : Matrix (Fin n) (Fin n) ℚ) : Prop :=
  ∀ i j, 0 ≤ B i j

/-! ### Structural transform layers (DAG_model.py lines 200–270)

`TransMultA.build` creates the adjacency weight `A` with initializer
`'zeros'`; `TransMultA.call` forms `I - Aᵀ` and left-multiplies every tensor
in its input list by it, returning the transformed list together with `A`.
`InvTransMultA.call` receives the transformed tensors plus `A` (the last
element of its Python input list, modelled here as a separate argument),
forms `(I - Aᵀ)⁻¹` by explicit inversion and left-multiplies each tensor. -/

/-- The initial value of the adjacency weight `A` (`initializer='zeros'`). -/
def TransMultA_initial_A (n : ℕ) : Matrix (Fin n) (Fin n) ℚ := 0

/-- `TransMultA.call`: multiply each tensor by `I - Aᵀ`; also return `A`. -/
def TransMultA_call {n d : ℕ} (A : Matrix (Fin n) (Fin n) ℚ)
    (x : List (Matrix (Fin n) (Fin d) ℚ)) :
    List (Matrix (Fin n) (Fin d) ℚ) × Matrix (Fin n) (Fin n) ℚ :=
  (x.map fun layer => ((1 : Matrix (Fin n) (Fin n) ℚ) - Aᵀ) * layer, A)

/-- `InvTransMultA.call`: multiply each tensor by `(I - Aᵀ)⁻¹`. -/
noncomputable def InvTransMultA_call {n d : ℕ} (layers : List (Matrix (Fin n) (Fin d) ℚ))
    (A : Matrix (Fin n) (Fin n) ℚ) : List (Matrix (Fin n) (Fin d) ℚ) :=
  layers.map fun layer => ((1 : Matrix (Fin n) (Fin n) ℚ) - Aᵀ)⁻¹ * layer

/-! ### Likelihoods (DAG_model.py lines 285–320)

Guarded real-valued primitives: `none` models a non-finite IEEE result.
`lgamma x` is finite for `x > 0` (the arguments fed to it by the likelihoods
are all positive there), `log x` is finite only for `x > 0`, `x / 0` is
non-finite or undefined, and `pow b e` is finite for `b > 0`, and for `b = 0`
with `e ≥ 0` (IEEE `pow(0, 0) = 1`, `pow(0, e) = 0` for `e > 0`, matching
`Real.rpow`). -/

/-- Guarded logarithm. -/
noncomputable def safeLog (x : ℝ) : Option ℝ :=
  if 0 < x then some (Real.log x) else none

/-- Guarded division. -/
noncomputable def safeDiv (a b : ℝ) : Option ℝ :=
  if b = 0 then none else some (a / b)

/-- Guarded real power. -/
noncomputable def safePow (b e : ℝ) : Option ℝ :=
  if 0 < b ∨ (b = 0 ∧ 0 ≤ e) then some (Real.rpow b e) else none

/-- Guarded log-gamma. -/
noncomputable def safeLgamma (x : ℝ) : Option ℝ :=
  if 0 < x then some (Real.log (Real.Gamma x)) else none

/-- IEEE `pow` lifted to a possibly non-finite base.  IEEE 754 / C99 mandate
`pow(x, ±0) = 1` for every `x`, NaN and infinities included, so a zero
exponent rescues a non-finite base (e.g. `pow(0/0, 0) = 1`); for a nonzero
exponent a non-finite base propagates and the guarded `safePow` decides
finiteness.  The likelihoods only ever raise nonnegative (or non-finite)
bases, the cases these guards cover. -/
noncomputable def powOption (b : Option ℝ) (e : ℝ) : Option ℝ :=
  if e = 0 then some 1 else b.bind fun x => safePow x e

/-- `NB_loglikelihood(y, [mu, r], eps)`.  The `tf2_flag` branches of the
source differ only in API spelling (`tf.math.lgamma` vs `tf.lgamma`); both
compute the same arithmetic, mirrored here under the `tf2` flag. -/
noncomputable def NB_loglikelihood (tf2 : Bool) (y mu r eps : ℝ) : Option ℝ :=
  if tf2 then do
    let g1 ← safeLgamma (y + r + eps)
    let g2 ← safeLgamma (r + eps)
    let g3 ← safeLgamma (y + 1)
    let q1 ← safeDiv (mu + eps) (r + mu + eps)
    let h1 ← safeLog q1
    let q2 ← safeDiv (r + eps) (r + mu + eps)
    let h2 ← safeLog q2
    pure (g1 - g2 - g3 + (y * h1 + r * h2))
  else do
    let g1 ← safeLgamma (y + r + eps)
    let g2 ← safeLgamma (r + eps)
    let g3 ← safeLgamma (y + 1)
    let q1 ← safeDiv (mu + eps) (r + mu + eps)
    let h1 ← safeLog q1
    let q2 ← safeDiv (r + eps) (r + mu + eps)
    let h2 ← safeLog q2
    pure (g1 - g2 - g3 + (y * h1 + r * h2))

/-- `ZINB_loglikelihood(y, [mu, r, pi], eps)`.  In the `tf2` branch every
log/pow argument carries the `eps` floor; in the non-`tf2` branch
`case_zero` is `log(pi + (1-pi) * pow(r/(r+mu), r))` and `case_nonzero`
is `log(1-pi) + nb`, with no floors.  The `pow` steps go through
`powOption` so a zero exponent yields 1 even on a non-finite base, exactly
as IEEE `pow` does.  `tf.where(y < 1e-8, ...)` selects elementwise, so the
value returned is that of the selected branch. -/
noncomputable def ZINB_loglikelihood (tf2 : Bool) (y mu r pi eps : ℝ) :
    Option ℝ :=
  let nb := NB_loglikelihood tf2 y mu r eps
  if tf2 then
    let case_zero : Option ℝ := do
      let p ← powOption (safeDiv r (r + mu + eps)) r
      safeLog (eps + pi + (1 - pi) * p)
    let case_nonzero : Option ℝ := do
      let l ← safeLog (1 - pi + eps)
      let v ← nb
      pure (l + v)
    if y < 1e-8 then case_zero else case_nonzero
  else
    let case_zero : Option ℝ := do
      let p ← powOption (safeDiv r (r + mu)) r
      safeLog (pi + (1 - pi) * p)
    let case_nonzero : Option ℝ := do
      let l ← safeLog (1 - pi)
      let v ← nb
      pure (l + v)
    if y < 1e-8 then case_zero else case_nonzero

/-! ### KL-divergence layer (DAG_model.py lines 79–123) -/

/-- `KLDivergenceLayer.gaussian_kl`: the elementwise analytic KL term between
the Gaussians `(mu_1, logvar_1)` and `(mu_2, logvar_2)`. -/
noncomputable def gaussian_kl {b d : ℕ}
    (g1 g2 : Matrix (Fin b) (Fin d) ℝ × Matrix (Fin b) (Fin d) ℝ) :
    Matrix (Fin b) (Fin d) ℝ :=
  fun i j =>
    -(0.5 : ℝ) * (1 - g2.2 i j + g1.2 i j) +
      0.5 * Real.exp (-g2.2 i j) *
        (Real.exp (g1.2 i j) + (g1.1 i j - g2.1 i j) ^ 2)

/-- `KLDivergenceLayer.create_reference`: broadcast the scalar reference mean
and log-variance (`tf.multiply` with a ones tensor of the batch shape). -/
def create_reference (b d : ℕ) (mean log_var : ℝ) :
    Matrix (Fin b) (Fin d) ℝ × Matrix (Fin b) (Fin d) ℝ :=
  (fun _ _ => mean, fun _ _ => log_var)

/-- `K.mean(M, axis=-1)`: the mean over the last (latent) axis, one value per
batch element. -/
noncomputable def meanLastAxis {b d : ℕ} (M : Matrix (Fin b) (Fin d) ℝ) :
    Fin b → ℝ :=
  fun i => (∑ j, M i j) / (d : ℝ)

/-- `KLDivergenceLayer.call`: the pair (registered loss, forwarded output).
The loss is `beta * K.mean(gaussian_kl(inputs[0:2], reference), axis=-1)`;
the layer returns `inputs[2]` (the latent sample `z`). -/
noncomputable def KLDivergenceLayer_call {b d : ℕ} (beta mean log_var : ℝ)
    (z_mean z_log_var z : Matrix (Fin b) (Fin d) ℝ) :
    (Fin b → ℝ) × Matrix (Fin b) (Fin d) ℝ :=
  (fun i => beta *
      meanLastAxis (gaussian_kl (z_mean, z_log_var)
        (create_reference b d mean log_var)) i,
    z)

/-- The loss the spec's words describe for the KL layer: beta times the
per-element KL term summed over the latent dimensions and averaged over the
batch. -/
noncomputable def KL_loss_specFormula {b d : ℕ} (beta mean log_var : ℝ)
    (z_mean z_log_var : Matrix (Fin b) (Fin d) ℝ) : ℝ :=
  beta * ((∑ i, ∑ j,
    gaussian_kl (z_mean, z_log_var) (create_reference b d mean log_var) i j) /
      (b : ℝ))

/-! ### Pass-through loss layers (DAG_model.py lines 48–76 and 128–166) -/

/-- `ReconstructionLossLayer.call`: the pair (registered loss, forwarded
output).  The loss is `-K.mean(rl(y, params, eps), axis=-1)`; the layer
returns `inputs[1]` (the likelihood parameters). -/
noncomputable def ReconstructionLossLayer_call {b d : ℕ} {P : Type}
    (rl : Matrix (Fin b) (Fin d) ℝ → P → ℝ → Matrix (Fin b) (Fin d) ℝ)
    (eps : ℝ) (y : Matrix (Fin b) (Fin d) ℝ) (params : P) :
    (Fin b → ℝ) × P :=
  (fun i => -meanLastAxis (rl y params eps) i, params)

/-- `ConstraintLossLayer.call`: the pair (registered loss, forwarded output).
The loss is `cl(lambda_A, penalty_A, A, alpha)`; the layer returns
`inputs[1]` (the decoder outputs). -/
def ConstraintLossLayer_call {W M L O : Type} (cl : W → W → M → W → O)
    (alpha lambda_A penalty_A : W) (A : M) (layers : L) : O × L :=
  (cl lambda_A penalty_A A alpha, layers)

/-! ### Training loop (DAG_model.py lines 146–156 and 437–448) -/

/-- The state the outer loop threads: the two non-trainable constraint-layer
weights plus all other (trainable) weights of the autoencoder. -/
structure TrainState (Θ : Type) where
  lambda_A : ℚ
  penalty_A : ℚ
  theta : Θ

/-- Modelled from the spec: `autoencoder.fit` is missing from the embedded
core (it is the external gradient optimizer); per the spec the round's fit
updates only trainable weights, and `lambda_A`/`penalty_A` are created with
`trainable=False` (lines 148–156), so a fit round is an arbitrary update `g`
of the trainable weights that leaves the two Lagrangian weights unchanged. -/
def fitRound {Θ : Type} (g : Θ → Θ) (s : TrainState Θ) : TrainState Θ :=
  ⟨s.lambda_A, s.penalty_A, g s.theta⟩

/-- The explicit post-round update (lines 443–448): read the constraint
layer's weights `[lambda_A, penalty_A]`, add 1 to each, write them back. -/
def dualUpdate {Θ : Type} (s : TrainState Θ) : TrainState Θ :=
  ⟨s.lambda_A + 1, s.penalty_A + 1, s.theta⟩

/-- The state at build time: `lambda_A` uses initializer `'zeros'` and
`penalty_A` initializer `'ones'` (lines 146–156). -/
def initState {Θ : Type} (θ0 : Θ) : TrainState Θ :=
  ⟨0, 1, θ0⟩

/-- The state at the start of round `r` of the outer loop: each earlier round
ran a fit (with per-round trainable update `gs i`) followed by the dual
update. -/
def stateAtRound {Θ : Type} (gs : ℕ → Θ → Θ) (θ0 : Θ) : ℕ → TrainState Θ
  | 0 => initState θ0
  | r + 1 => dualUpdate (fitRound (gs r) (stateAtRound gs θ0 r))

end DAGModel

/-! ## Helper lemmas -/

namespace DAGModel

/-- Squaring a monoid element `k` times raises it to the power `2 ^ k`. -/
theorem sq_iterate_eq_pow {M : Type} [Monoid M] (x : M) (k : ℕ) :
    (fun y => y * y)^[k] x = x ^ (2 ^ k) := by
  induction k with
  | zero => simp
  | succ k ih =>
      rw [Function.iterate_succ_apply', ih, ← pow_add, ← two_mul, pow_succ,
        mul_comm (2 ^ k) 2]

/-- `DAG_constraint` computes the `2 ^ (n-1)`-th power of `I + alpha * A∘A`. -/
theorem DAG_constraint_eq_pow {n : ℕ} (A : Matrix (Fin n) (Fin n) ℚ)
    (alpha : ℚ) :
    DAG_constraint A alpha =
      Matrix.trace ((1 + alpha • hadSq A) ^ (2 ^ (n - 1))) - (n : ℚ) := by
  rw [DAG_constraint, sq_iterate_eq_pow]

/-- Trace of a binomial power `(I + a • B) ^ m`, term by term. -/
theorem trace_one_add_smul_pow {n : ℕ} (B : Matrix (Fin n) (Fin n) ℚ) (a : ℚ)
    (m : ℕ) :
    Matrix.trace ((1 + a • B) ^ m) =
      ∑ k ∈ Finset.range (m + 1),
        (m.choose k : ℚ) * a ^ k * Matrix.trace (B ^ k) := by
  have hc : Commute (a • B) (1 : Matrix (Fin n) (Fin n) ℚ) := Commute.one_right _
  rw [add_comm, hc.add_pow, Matrix.trace_sum]
  refine Finset.sum_congr rfl fun k _ => ?_
  rw [one_pow, mul_one, smul_pow, Matrix.trace_mul_comm, ← nsmul_eq_mul,
    Matrix.trace_smul, Matrix.trace_smul, smul_eq_mul, nsmul_eq_mul]
  ring

theorem hadSq_nonneg {n : ℕ} (A : Matrix (Fin n) (Fin n) ℚ) :
    EntrywiseNonneg (hadSq A) := fun _ _ => mul_self_nonneg _

theorem mul_entrywiseNonneg {n : ℕ} {B C : Matrix (Fin n) (Fin n) ℚ}
    (hB : EntrywiseNonneg B) (hC : EntrywiseNonneg C) :
    EntrywiseNonneg (B * C) := by
  intro i j
  rw [Matrix.mul_apply]
  exact Finset.sum_nonneg fun k _ => mul_nonneg (hB i k) (hC k j)

theorem pow_entrywiseNonneg {n : ℕ} {B : Matrix (Fin n) (Fin n) ℚ}
    (hB : EntrywiseNonneg B) : ∀ k, EntrywiseNonneg (B ^ k) := by
  intro k
  induction k with
  | zero =>
      intro i j
      rw [pow_zero]
      by_cases h : i = j <;> simp [Matrix.one_apply, h]
  | succ k ih =>
      rw [pow_succ]
      exact mul_entrywiseNonneg ih hB

theorem trace_pow_nonneg {n : ℕ} {B : Matrix (Fin n) (Fin n) ℚ}
    (hB : EntrywiseNonneg B) (k : ℕ) : 0 ≤ Matrix.trace (B ^ k) :=
  Finset.sum_nonneg fun i _ => pow_entrywiseNonneg hB k i i

/-- A power of an entrywise-nonnegative matrix dominates the product of the
entries along any fixed walk. -/
theorem pow_apply_ge_walk {n : ℕ} {B : Matrix (Fin n) (Fin n) ℚ}
    (hB : EntrywiseNonneg B) (c : ℕ → Fin n) :
    ∀ L, (∏ t ∈ Finset.range L, B (c t) (c (t + 1))) ≤ (B ^ L) (c 0) (c L) := by
  intro L
  induction L with
  | zero => simp [Matrix.one_apply]
  | succ L ih =>
      rw [pow_succ, Matrix.mul_apply, Finset.prod_range_succ]
      calc (∏ t ∈ Finset.range L, B (c t) (c (t + 1))) * B (c L) (c (L + 1))
          ≤ (B ^ L) (c 0) (c L) * B (c L) (c (L + 1)) :=
            mul_le_mul_of_nonneg_right ih (hB _ _)
        _ ≤ ∑ k, (B ^ L) (c 0) k * B k (c (L + 1)) :=
            Finset.single_le_sum
              (fun k _ => mul_nonneg (pow_entrywiseNonneg hB L _ _) (hB _ _))
              (Finset.mem_univ (c L))

theorem strictUpper_mul {n : ℕ} {B C : Matrix (Fin n) (Fin n) ℚ}
    (hB : StrictUpper B) (hC : StrictUpper C) : StrictUpper (B * C) := by
  intro i j hji
  rw [Matrix.mul_apply]
  refine Finset.sum_eq_zero fun k _ => ?_
  rcases le_or_lt k i with hk | hk
  · rw [hB i k hk, zero_mul]
  · rw [hC k j (le_trans hji hk.le), mul_zero]

theorem strictUpper_trace_pow {n : ℕ} {B : Matrix (Fin n) (Fin n) ℚ}
    (hB : StrictUpper B) {k : ℕ} (hk : 1 ≤ k) : Matrix.trace (B ^ k) = 0 := by
  have hst : StrictUpper (B ^ k) := by
    induction k with
    | zero => omega
    | succ k ih =>
        rcases Nat.eq_zero_or_pos k with hk0 | hk0
        · subst hk0; simpa using hB
        · rw [pow_succ]
          exact strictUpper_mul (ih hk0) hB
  exact Finset.sum_eq_zero fun i _ => hst i i le_rfl

theorem transpose_strictUpper_of_strictLower {n : ℕ}
    {B : Matrix (Fin n) (Fin n) ℚ} (hB : StrictLower B) : StrictUpper Bᵀ :=
  fun i j hji => hB j i hji

theorem trace_pow_eq_zero_of_strict {n : ℕ} {B : Matrix (Fin n) (Fin n) ℚ}
    (hB : StrictUpper B ∨ StrictLower B) {k : ℕ} (hk : 1 ≤ k) :
    Matrix.trace (B ^ k) = 0 := by
  rcases hB with hB | hB
  · exact strictUpper_trace_pow hB hk
  · rw [← Matrix.trace_transpose, Matrix.transpose_pow]
    exact strictUpper_trace_pow (transpose_strictUpper_of_strictLower hB) hk

theorem le_two_pow_pred {n : ℕ} (hn : 1 ≤ n) : n ≤ 2 ^ (n - 1) := by
  obtain ⟨m, rfl⟩ := Nat.exists_eq_add_of_le hn
  have := Nat.lt_two_pow m
  simpa [Nat.add_comm] using Nat.succ_le_of_lt this

/-- An acyclic (strictly triangular) adjacency yields a zero constraint. -/
theorem dag_zero_of_strict {n : ℕ} (A : Matrix (Fin n) (Fin n) ℚ) (a : ℚ)
    (hA : StrictUpper A ∨ StrictLower A) : DAG_constraint A a = 0 := by
  have hB : StrictUpper (hadSq A) ∨ StrictLower (hadSq A) := by
    rcases hA with hA | hA
    · exact Or.inl fun i j hji => by rw [hadSq, hA i j hji, zero_mul]
    · exact Or.inr fun i j hij => by rw [hadSq, hA i j hij, zero_mul]
  rw [DAG_constraint, sq_iterate_eq_pow, trace_one_add_smul_pow]
  rw [Finset.sum_eq_single_of_mem 0 (Finset.mem_range.mpr (Nat.succ_pos _))]
  · simp [Matrix.trace_one]
  · intro k _ hk0
    rw [trace_pow_eq_zero_of_strict hB (Nat.one_le_iff_ne_zero.mpr hk0),
      mul_zero]

/-- A directed cycle makes the constraint strictly positive. -/
theorem dag_pos_of_cycle {n : ℕ} (A : Matrix (Fin n) (Fin n) ℚ) (a : ℚ)
    (ha : 0 < a) (hcyc : HasCycle A) : 0 < DAG_constraint A a := by
  obtain ⟨L, c, hL0, hLn, hcL, hedge⟩ := hcyc
  have hn1 : 1 ≤ n := le_trans hL0 hLn
  set m := 2 ^ (n - 1) with hm
  have hLm : L ≤ m := le_trans hLn (le_two_pow_pred hn1)
  set B := hadSq A with hBdef
  have hBnn : EntrywiseNonneg B := hadSq_nonneg A
  have hprod : 0 < ∏ t ∈ Finset.range L, B (c t) (c (t + 1)) := by
    refine Finset.prod_pos fun t ht => ?_
    exact mul_self_pos.mpr (hedge t (Finset.mem_range.mp ht))
  have hdiag : 0 < (B ^ L) (c 0) (c 0) := by
    have := pow_apply_ge_walk hBnn c L
    rw [hcL] at this
    exact lt_of_lt_of_le hprod this
  have htr : 0 < Matrix.trace (B ^ L) := by
    have hle : (B ^ L) (c 0) (c 0) ≤ Matrix.trace (B ^ L) := by
      rw [Matrix.trace]
      exact Finset.single_le_sum
        (fun i _ => pow_entrywiseNonneg hBnn L i i) (Finset.mem_univ (c 0))
    exact lt_of_lt_of_le hdiag hle
  have key : (n : ℚ) < Matrix.trace ((1 + a • B) ^ m) := by
    rw [trace_one_add_smul_pow]
    have hsub : ({0, L} : Finset ℕ) ⊆ Finset.range (m + 1) := by
      intro k hk
      rcases Finset.mem_insert.mp hk with rfl | hk
      · exact Finset.mem_range.mpr (Nat.succ_pos _)
      · rw [Finset.mem_singleton] at hk
        subst hk
        exact Finset.mem_range.mpr (Nat.lt_succ_of_le hLm)
    have hnn : ∀ k ∈ Finset.range (m + 1), k ∉ ({0, L} : Finset ℕ) →
        0 ≤ (m.choose k : ℚ) * a ^ k * Matrix.trace (B ^ k) := fun k _ _ =>
      mul_nonneg (mul_nonneg (Nat.cast_nonneg _) (pow_nonneg ha.le k))
        (trace_pow_nonneg hBnn k)
    have hpair : ∑ k ∈ ({0, L} : Finset ℕ),
        (m.choose k : ℚ) * a ^ k * Matrix.trace (B ^ k) ≤
        ∑ k ∈ Finset.range (m + 1),
          (m.choose k : ℚ) * a ^ k * Matrix.trace (B ^ k) :=
      Finset.sum_le_sum_of_subset_of_nonneg hsub hnn
    rw [Finset.sum_pair hL0.ne] at hpair
    have h0 : (m.choose 0 : ℚ) * a ^ 0 *
        Matrix.trace ((B : Matrix (Fin n) (Fin n) ℚ) ^ 0) = n := by
      simp [Matrix.trace_one]
    have hLpos : 0 < (m.choose L : ℚ) * a ^ L * Matrix.trace (B ^ L) := by
      refine mul_pos (mul_pos ?_ (pow_pos ha L)) htr
      exact_mod_cast Nat.choose_pos hLm
    rw [h0] at hpair
    linarith
  rw [DAG_constraint, sq_iterate_eq_pow]
  simpa using key

end DAGModel

/-! ## Claim theorems -/

/-- C1: the claim states that `DAG_constraint(A, α)` returns
`trace((I + α·A∘A)^n) − n`; in fact `n − 1` repeated squarings of the
accumulator produce the `2^(n−1)`-th power, which differs from the `n`-th
power already at `n = 3`: for the all-ones 3×3 matrix and `α = 1` the code
returns 255 while the claimed formula gives 63. -/
theorem C1_counterexample :
    DAGModel.DAG_constraint
        (fun (_ _ : Fin 3) => (1 : ℚ)) 1 ≠
      DAGModel.DAG_constraint_specFormula
        (fun (_ _ : Fin 3) => (1 : ℚ)) 1 := by
  unfold DAGModel.DAG_constraint DAGModel.DAG_constraint_specFormula
    DAGModel.hadSq
  norm_num [Function.iterate_succ, Function.iterate_zero,
    Matrix.trace_fin_three, pow_succ, pow_zero, Matrix.mul_apply,
    Fin.sum_univ_three, Matrix.one_apply, Matrix.add_apply, Matrix.smul_apply,
    Matrix.one_mul, Fin.ext_iff]

/-- C1 (amended): for every n×n rational matrix A (n ≥ 1) and positive scale
factor α, `DAG_constraint(A, α)` returns
`trace((I + α·A∘A)^(2^(n−1))) − n`, the matrix power obtained by n−1 repeated
squarings of `I + α·A∘A`. -/
theorem C1_DAG_constraint_formula {n : ℕ} (A : Matrix (Fin n) (Fin n) ℚ)
    (alpha : ℚ) (_hn : 1 ≤ n) (_ha : 0 < alpha) :
    DAGModel.DAG_constraint A alpha =
      Matrix.trace ((1 + alpha • DAGModel.hadSq A) ^ (2 ^ (n - 1))) - (n : ℚ) :=
  DAGModel.DAG_constraint_eq_pow A alpha

/-- Witness for C1: the amended formula evaluated at a concrete 2×2 matrix. -/
theorem C1_DAG_constraint_formula_witness :
    1 ≤ 2 ∧ (0 : ℚ) < 1 ∧
      DAGModel.DAG_constraint (fun (_ _ : Fin 2) => (1 : ℚ)) 1 =
        Matrix.trace ((1 + (1 : ℚ) • DAGModel.hadSq
          (fun (_ _ : Fin 2) => (1 : ℚ))) ^ (2 ^ (2 - 1))) - (2 : ℚ) :=
  ⟨by norm_num, by norm_num,
    C1_DAG_constraint_formula (fun _ _ => 1) 1 (by norm_num) (by norm_num)⟩

/-- C2: for every α > 0, `DAG_constraint(A, α) = 0` whenever A is strictly
upper- or lower-triangular with zero diagonal, and `DAG_constraint(A, α) > 0`
for every matrix containing a directed cycle (in particular for a 2×2 matrix
with both off-diagonal entries nonzero, an instance of `HasCycle`). -/
theorem C2_DAG_constraint_sign :
    (∀ (n : ℕ) (A : Matrix (Fin n) (Fin n) ℚ) (alpha : ℚ), 0 < alpha →
        (DAGModel.StrictUpper A ∨ DAGModel.StrictLower A) →
        DAGModel.DAG_constraint A alpha = 0) ∧
    (∀ (n : ℕ) (A : Matrix (Fin n) (Fin n) ℚ) (alpha : ℚ), 0 < alpha →
        DAGModel.HasCycle A → 0 < DAGModel.DAG_constraint A alpha) :=
  ⟨fun _ A alpha _ hA => DAGModel.dag_zero_of_strict A alpha hA,
    fun _ A alpha ha hcyc => DAGModel.dag_pos_of_cycle A alpha ha hcyc⟩

/-- Witness for C2: a strictly upper-triangular 2×2 matrix gives constraint
zero, and the 2×2 matrix with both off-diagonal entries 1 (a 2-cycle) gives a
strictly positive constraint. -/
theorem C2_DAG_constraint_sign_witness :
    DAGModel.DAG_constraint
        (fun (i j : Fin 2) => if i < j then (1 : ℚ) else 0) 1 = 0 ∧
      0 < DAGModel.DAG_constraint
        (fun (i j : Fin 2) => if i = j then (0 : ℚ) else 1) 1 :=
  ⟨C2_DAG_constraint_sign.1 2 _ 1 (by norm_num)
      (Or.inl fun i j hji => if_neg (not_lt.mpr hji)),
    C2_DAG_constraint_sign.2 2 _ 1 (by norm_num)
      ⟨2, fun t => if t % 2 = 0 then 0 else 1, by norm_num, by norm_num,
        by norm_num, by decide⟩⟩

/-- C5: applying the forward structural transform (left-multiplication by
`I − Aᵀ`) and then the inverse transform (left-multiplication by
`(I − Aᵀ)⁻¹`) with the same A returns every original tensor, whenever
`I − Aᵀ` is invertible. -/
theorem C5_structural_roundtrip {n d : ℕ} (A : Matrix (Fin n) (Fin n) ℚ)
    (x : List (Matrix (Fin n) (Fin d) ℚ))
    (h : IsUnit ((1 : Matrix (Fin n) (Fin n) ℚ) - Aᵀ).det) :
    DAGModel.InvTransMultA_call (DAGModel.TransMultA_call A x).1
      (DAGModel.TransMultA_call A x).2 = x := by
  unfold DAGModel.TransMultA_call DAGModel.InvTransMultA_call
  rw [List.map_map]
  have hcomp : ((fun t : Matrix (Fin n) (Fin d) ℚ =>
        ((1 : Matrix (Fin n) (Fin n) ℚ) - Aᵀ)⁻¹ * t) ∘
      fun t => ((1 : Matrix (Fin n) (Fin n) ℚ) - Aᵀ) * t) = id := by
    funext t
    simp only [Function.comp_apply, id_eq, ← Matrix.mul_assoc,
      Matrix.nonsing_inv_mul _ h, Matrix.one_mul]
  rw [hcomp, List.map_id]

/-- Witness for C5: round trip through `A = 0` (so `I - Aᵀ = I`) on a
singleton tensor list. -/
theorem C5_structural_roundtrip_witness :
    IsUnit ((1 : Matrix (Fin 1) (Fin 1) ℚ) -
        (0 : Matrix (Fin 1) (Fin 1) ℚ)ᵀ).det ∧
      DAGModel.InvTransMultA_call
        (DAGModel.TransMultA_call (0 : Matrix (Fin 1) (Fin 1) ℚ)
          ([fun _ _ => 5] : List (Matrix (Fin 1) (Fin 1) ℚ))).1
        (DAGModel.TransMultA_call (0 : Matrix (Fin 1) (Fin 1) ℚ)
          ([fun _ _ => 5] : List (Matrix (Fin 1) (Fin 1) ℚ))).2 =
        ([fun _ _ => 5] : List (Matrix (Fin 1) (Fin 1) ℚ)) :=
  ⟨by simp, C5_structural_roundtrip 0
    ([fun _ _ => 5] : List (Matrix (Fin 1) (Fin 1) ℚ)) (by simp)⟩

/-- C10: with the adjacency weight at its build-time initialization `A = 0`,
the forward transform returns its inputs unchanged (together with `A`), the
inverse transform returns its inputs unchanged, and the acyclicity measure is
exactly zero. -/
theorem C10_zero_initialization {n d : ℕ} (alpha : ℚ)
    (x : List (Matrix (Fin n) (Fin d) ℚ)) :
    DAGModel.TransMultA_call (DAGModel.TransMultA_initial_A n) x =
        (x, DAGModel.TransMultA_initial_A n) ∧
      DAGModel.InvTransMultA_call x (DAGModel.TransMultA_initial_A n) = x ∧
      DAGModel.DAG_constraint (DAGModel.TransMultA_initial_A n) alpha = 0 := by
  refine ⟨?_, ?_, ?_⟩
  · unfold DAGModel.TransMultA_call DAGModel.TransMultA_initial_A
    simp
  · unfold DAGModel.InvTransMultA_call DAGModel.TransMultA_initial_A
    simp
  · exact DAGModel.dag_zero_of_strict _ alpha (Or.inl fun _ _ _ => rfl)

/-- The Lagrangian weights at the start of round `r`: each completed round
leaves them unchanged during fit and then adds 1 to each. -/
theorem stateAtRound_lambda_penalty {Θ : Type} (gs : ℕ → Θ → Θ) (θ0 : Θ) :
    ∀ r, (DAGModel.stateAtRound gs θ0 r).lambda_A = r ∧
      (DAGModel.stateAtRound gs θ0 r).penalty_A = 1 + r := by
  intro r
  induction r with
  | zero => exact ⟨rfl, by norm_num [DAGModel.stateAtRound, DAGModel.initState]⟩
  | succ r ih =>
      have h1 := ih.1
      have h2 := ih.2
      constructor
      · show (DAGModel.stateAtRound gs θ0 r).lambda_A + 1 = (r + 1 : ℕ)
        rw [h1]
        push_cast
        ring
      · show (DAGModel.stateAtRound gs θ0 r).penalty_A + 1 = 1 + (r + 1 : ℕ)
        rw [h2]
        push_cast
        ring

/-- C4: in the 10-round outer loop starting from `lambda_A = 0`,
`penalty_A = 1`, each fit call leaves the two non-trainable weights
unchanged, the post-round update adds exactly 1 to each, and hence at the
start of round `r` (`r = 0..9`) `lambda_A = r` and `penalty_A = 1 + r`. -/
theorem C4_lagrangian_schedule :
    ∀ (Θ : Type) (gs : ℕ → Θ → Θ) (θ0 : Θ) (r : ℕ), r < 10 →
      ((DAGModel.stateAtRound gs θ0 r).lambda_A = r ∧
        (DAGModel.stateAtRound gs θ0 r).penalty_A = 1 + r) ∧
      (∀ (g : Θ → Θ) (s : DAGModel.TrainState Θ),
        (DAGModel.fitRound g s).lambda_A = s.lambda_A ∧
        (DAGModel.fitRound g s).penalty_A = s.penalty_A) :=
  fun _ gs θ0 r _ =>
    ⟨stateAtRound_lambda_penalty gs θ0 r, fun _ _ => ⟨rfl, rfl⟩⟩

/-- Witness for C4: the schedule at the start of round 9. -/
theorem C4_lagrangian_schedule_witness :
    9 < 10 ∧
      ((DAGModel.stateAtRound (fun _ => id) () 9).lambda_A = (9 : ℕ) ∧
        (DAGModel.stateAtRound (fun _ => id) () 9).penalty_A = 1 + (9 : ℕ)) ∧
      (∀ (g : Unit → Unit) (s : DAGModel.TrainState Unit),
        (DAGModel.fitRound g s).lambda_A = s.lambda_A ∧
        (DAGModel.fitRound g s).penalty_A = s.penalty_A) :=
  ⟨by norm_num, C4_lagrangian_schedule Unit (fun _ => id) () 9 (by norm_num)⟩

namespace DAGModel

/-- Under the domain `y ≥ 0`, `mu ≥ 0`, `r ≥ 0`, `eps > 0` every guarded
operation inside `NB_loglikelihood` (either API branch) is defined: all
`lgamma` and `log` arguments are positive and the divisions have positive
denominators, each floored by `eps`. -/
theorem NB_some_of_domain (tf2 : Bool) {y mu r eps : ℝ} (hy : 0 ≤ y)
    (hmu : 0 ≤ mu) (hr : 0 ≤ r) (heps : 0 < eps) :
    (NB_loglikelihood tf2 y mu r eps).isSome := by
  have h1 : 0 < y + r + eps := by linarith
  have h2 : 0 < r + eps := by linarith
  have h3 : 0 < y + (1 : ℝ) := by linarith
  have hden : r + mu + eps ≠ 0 := by positivity
  have h5 : 0 < (mu + eps) / (r + mu + eps) := by positivity
  have h6 : 0 < (r + eps) / (r + mu + eps) := by positivity
  cases tf2 <;>
    simp [NB_loglikelihood, safeLgamma, safeDiv, safeLog, h1, h2, h3, hden,
      h5, h6]

/-- Evaluation of the TF2 branch of `ZINB_loglikelihood` on its domain:
the `y < 1e-8` branch returns the epsilon-floored structural-zero formula,
the other branch adds `log(1 - pi + eps)` to the NB log-likelihood. -/
theorem ZINB_tf2_eval {y mu r pi eps : ℝ} (hmu : 0 ≤ mu) (hr : 0 ≤ r)
    (heps : 0 < eps) (hpi0 : 0 ≤ pi) (hpi1 : pi ≤ 1) :
    ZINB_loglikelihood true y mu r pi eps =
      if y < 1e-8 then
        some (Real.log (eps + pi + (1 - pi) * (r / (r + mu + eps)) ^ r))
      else
        (NB_loglikelihood true y mu r eps).map
          (fun v => Real.log (1 - pi + eps) + v) := by
  have hden : r + mu + eps ≠ 0 := by positivity
  have hq : 0 ≤ r / (r + mu + eps) := by positivity
  have hpow : powOption (safeDiv r (r + mu + eps)) r =
      some ((r / (r + mu + eps)) ^ r) := by
    rcases hr.lt_or_eq with h | h
    · have hqpos : 0 < r / (r + mu + eps) := div_pos h (by linarith)
      simp [powOption, h.ne', safeDiv, hden, safePow, hqpos]
    · rw [powOption, if_pos h.symm, ← h, Real.rpow_zero]
  have hp : 0 ≤ (r / (r + mu + eps)) ^ r := Real.rpow_nonneg hq r
  have hmulnn : 0 ≤ (1 - pi) * (r / (r + mu + eps)) ^ r :=
    mul_nonneg (by linarith) hp
  have hlogarg : 0 < eps + pi + (1 - pi) * (r / (r + mu + eps)) ^ r := by
    linarith
  have hl : 0 < 1 - pi + eps := by linarith
  by_cases hy8 : y < 1e-8
  · simp [ZINB_loglikelihood, hpow, safeLog, hlogarg, hy8]
  · cases hnb : NB_loglikelihood true y mu r eps <;>
      simp [ZINB_loglikelihood, hpow, safeLog, hy8, hl, hnb]

end DAGModel

/-- C3 (amended): on the domain y ≥ 0, mu ≥ 0, r ≥ 0, pi ∈ [0,1] and eps > 0,
`NB_loglikelihood` (both numeric-API branches) and the TF2 branch of
`ZINB_loglikelihood` are finite by construction — every log, lgamma, power
and division argument is floored by eps.  (The TF1 branch of
`ZINB_loglikelihood` has no such floors and is not finite on this domain; see
the counterexample.) -/
theorem C3_likelihood_finiteness :
    ∀ y mu r pi eps : ℝ, 0 < eps → 0 ≤ y → 0 ≤ mu → 0 ≤ r →
      0 ≤ pi → pi ≤ 1 →
      (DAGModel.NB_loglikelihood true y mu r eps).isSome ∧
      (DAGModel.NB_loglikelihood false y mu r eps).isSome ∧
      (DAGModel.ZINB_loglikelihood true y mu r pi eps).isSome := by
  intro y mu r pi eps heps hy hmu hr hpi0 hpi1
  refine ⟨DAGModel.NB_some_of_domain true hy hmu hr heps,
    DAGModel.NB_some_of_domain false hy hmu hr heps, ?_⟩
  rw [DAGModel.ZINB_tf2_eval hmu hr heps hpi0 hpi1]
  by_cases hy8 : y < 1e-8
  · simp [hy8]
  · have h := DAGModel.NB_some_of_domain true hy hmu hr heps
    rcases Option.isSome_iff_exists.mp h with ⟨v, hv⟩
    simp [if_neg hy8, hv]

/-- C3 counterexample: in the TF1 branch of `ZINB_loglikelihood` the
nonzero-count formula is `log(1.0 - pi) + nb` with no epsilon floor; at
`y = 1`, `mu = 1`, `r = 1`, `pi = 1` (a point of the claim's domain, where
`tf.where` selects this branch since `y ≥ 1e-8`) the code computes
`log(0) = -Inf`, a non-finite selected value, contradicting the claim for
the non-TF2 numeric-API branch. -/
theorem C3_counterexample :
    DAGModel.ZINB_loglikelihood false 1 1 1 1 1e-10 = none := by
  have h8 : ¬ ((1 : ℝ) < 1e-8) := by norm_num
  simp [DAGModel.ZINB_loglikelihood, DAGModel.safeLog, h8]

/-- Witness for C3: the likelihoods evaluated on a concrete interior point of
the domain. -/
theorem C3_likelihood_finiteness_witness :
    (0 : ℝ) < 1 ∧ (0 : ℝ) ≤ 2 ∧ (0 : ℝ) ≤ 3 ∧ (0 : ℝ) ≤ 1 ∧
      (0 : ℝ) ≤ 1/2 ∧ (1/2 : ℝ) ≤ 1 ∧
      ((DAGModel.NB_loglikelihood true 2 3 1 1).isSome ∧
        (DAGModel.NB_loglikelihood false 2 3 1 1).isSome ∧
        (DAGModel.ZINB_loglikelihood true 2 3 1 (1/2) 1).isSome) :=
  ⟨by norm_num, by norm_num, by norm_num, by norm_num, by norm_num,
    by norm_num,
    C3_likelihood_finiteness 2 3 1 (1/2) 1 (by norm_num) (by norm_num)
      (by norm_num) (by norm_num) (by norm_num) (by norm_num)⟩

/-- C6: on the domain y ≥ 0, mu ≥ 0, r > 0, pi ∈ [0,1] (eps > 0), the TF2
`ZINB_loglikelihood` returns the epsilon-floored structural-zero branch
`log(eps + pi + (1−pi)·(r/(r+mu+eps))^r)` when `y < 1e-8`, and otherwise the
(1−pi)-scaled NB branch `log(1−pi+eps) + NB_loglikelihood(y, (mu, r))`. -/
theorem C6_ZINB_branch_selection (y mu r pi eps : ℝ) (heps : 0 < eps)
    (_hy : 0 ≤ y) (hmu : 0 ≤ mu) (hr : 0 < r) (hpi0 : 0 ≤ pi)
    (hpi1 : pi ≤ 1) :
    DAGModel.ZINB_loglikelihood true y mu r pi eps =
      if y < 1e-8 then
        some (Real.log (eps + pi + (1 - pi) * (r / (r + mu + eps)) ^ r))
      else
        (DAGModel.NB_loglikelihood true y mu r eps).map
          (fun v => Real.log (1 - pi + eps) + v) :=
  DAGModel.ZINB_tf2_eval hmu hr.le heps hpi0 hpi1

/-- Witness for C6: branch selection at a concrete zero count. -/
theorem C6_ZINB_branch_selection_witness :
    (0 : ℝ) < 1 ∧ (0 : ℝ) ≤ 0 ∧ (0 : ℝ) ≤ 0 ∧ (0 : ℝ) < 1 ∧
      (0 : ℝ) ≤ 1/2 ∧ (1/2 : ℝ) ≤ 1 ∧
      DAGModel.ZINB_loglikelihood true 0 0 1 (1/2) 1 =
        (if (0 : ℝ) < 1e-8 then
          some (Real.log (1 + 1/2 + (1 - 1/2) * ((1 : ℝ) / (1 + 0 + 1)) ^ (1 : ℝ)))
        else
          (DAGModel.NB_loglikelihood true 0 0 1 1).map
            (fun v => Real.log (1 - 1/2 + 1) + v)) :=
  ⟨by norm_num, by norm_num, by norm_num, by norm_num, by norm_num,
    by norm_num,
    C6_ZINB_branch_selection 0 0 1 (1/2) 1 (by norm_num) (by norm_num)
      (by norm_num) (by norm_num) (by norm_num) (by norm_num)⟩

/-- C8: the KL divergence computed by `gaussian_kl` between a Gaussian and
itself (reference with the same mean and log-variance as the posterior) is
zero elementwise. -/
theorem C8_gaussian_kl_self_zero {b d : ℕ}
    (mu lv : Matrix (Fin b) (Fin d) ℝ) :
    DAGModel.gaussian_kl (mu, lv) (mu, lv) = 0 := by
  funext i j
  have h : Real.exp (-lv i j) * Real.exp (lv i j) = 1 := by
    rw [← Real.exp_add]
    simp
  simp only [DAGModel.gaussian_kl, sub_self, Matrix.zero_apply]
  ring_nf
  nlinarith [h]

/-- C7 (amended): the KL layer registers as loss, per batch element, beta
times the analytic per-element KL term against the broadcast reference
`(mean, log_var)`, AVERAGED (`K.mean`) over the latent dimensions — not
summed — and performs no batch reduction itself. -/
theorem C7_KL_registered_loss {b d : ℕ} (beta mean log_var : ℝ)
    (z_mean z_log_var z : Matrix (Fin b) (Fin d) ℝ) :
    (DAGModel.KLDivergenceLayer_call beta mean log_var z_mean z_log_var
        z).1 =
      fun i => beta * ((∑ j, (-(0.5 : ℝ) * (1 - log_var + z_log_var i j) +
        0.5 * Real.exp (-log_var) * (Real.exp (z_log_var i j) +
          (z_mean i j - mean) ^ 2))) / (d : ℝ)) := rfl

/-- C7 counterexample: at batch size 1 (where averaging over the batch is a
no-op) with two latent dimensions, posterior mean 2 and all log-variances 0
against the reference N(0, 1), each per-dimension KL term is 2; the layer
registers the MEAN 2 per sample, while the claimed per-dimension SUM is 4. -/
theorem C7_counterexample :
    (DAGModel.KLDivergenceLayer_call 1 0 0
        ((fun _ _ => 2) : Matrix (Fin 1) (Fin 2) ℝ) 0 0).1 0 ≠
      DAGModel.KL_loss_specFormula 1 0 0
        ((fun _ _ => 2) : Matrix (Fin 1) (Fin 2) ℝ) 0 := by
  simp [DAGModel.KLDivergenceLayer_call, DAGModel.KL_loss_specFormula,
    DAGModel.meanLastAxis, DAGModel.gaussian_kl, DAGModel.create_reference,
    Fin.sum_univ_two, Real.exp_zero]
  norm_num

/-- C9: each side-effecting loss layer forwards its designated input
unchanged: the reconstruction layer returns the likelihood parameters, the
KL layer returns the latent sample `z`, and the constraint layer returns its
second input (the decoder outputs); only the first component (the registered
loss) carries their effect. -/
theorem C9_loss_layers_passthrough {b d : ℕ} {P L O W M : Type}
    (rl : Matrix (Fin b) (Fin d) ℝ → P → ℝ → Matrix (Fin b) (Fin d) ℝ)
    (eps : ℝ) (y : Matrix (Fin b) (Fin d) ℝ) (params : P)
    (beta mean log_var : ℝ)
    (z_mean z_log_var z : Matrix (Fin b) (Fin d) ℝ)
    (cl : W → W → M → W → O) (alpha lambda_A penalty_A : W) (A : M)
    (layers : L) :
    (DAGModel.ReconstructionLossLayer_call rl eps y params).2 = params ∧
      (DAGModel.KLDivergenceLayer_call beta mean log_var z_mean z_log_var
        z).2 = z ∧
      (DAGModel.ConstraintLossLayer_call cl alpha lambda_A penalty_A A
        layers).2 = layers :=
  ⟨rfl, rfl, rfl⟩
